import Mathlib

/-!
Verification of the chunking / enrichment pipeline of the policy-document
preprocessing scripts (`preprocess_rag_data.py`, `preprocess_policies_v4.py`).

Strings are modelled as `List Char` (Python `str` is a sequence of code
points).  A document's line list is `List (List Char)`.  Each Python
function used by the claims is embedded as an executable Lean definition
of the same name; loops become structural recursions, the mutable
`chunks` output list becomes an explicit accumulator argument.
-/

/-- Convert a Lean string literal to the `List Char` representation. -/
def str (s : String) : List Char := s.toList

/-- Python's `\s` / `str.strip` whitespace test, restricted to the ASCII
whitespace characters (the documents and patterns in the scripts only use
these). -/
def isSpaceChar (c : Char) : Bool :=
  c = ' ' || c = '\t' || c = '\n' || c = '\r' || c = '\x0b' || c = '\x0c'

/-- Total number of characters in a list of lines (no separators),
as accumulated by `current_size` in `semantic_chunking`. -/
def sumLen (l : List (List Char)) : Nat := (l.map List.length).sum

@[simp] theorem sumLen_nil : sumLen [] = 0 := rfl

@[simp] theorem sumLen_cons (x : List Char) (l : List (List Char)) :
    sumLen (x :: l) = x.length + sumLen l := by
  simp [sumLen]

@[simp] theorem sumLen_append (l₁ l₂ : List (List Char)) :
    sumLen (l₁ ++ l₂) = sumLen l₁ + sumLen l₂ := by
  simp [sumLen]

/-- Python's `sep.join(parts)`. -/
def joinWith (sep : List Char) : List (List Char) → List Char
  | [] => []
  | [p] => p
  | p :: q :: rest => p ++ sep ++ joinWith sep (q :: rest)

/-- `'\n'.join(lines)`, the chunk text construction in `semantic_chunking`. -/
def joinLines (lines : List (List Char)) : List Char := joinWith [ '\n' ] lines

theorem joinLines_length : ∀ (l : List (List Char)), l ≠ [] →
    (joinLines l).length + 1 = sumLen l + l.length := by
  intro l
  induction l with
  | nil => intro h; exact absurd rfl h
  | cons x rest ih =>
    intro _
    cases rest with
    | nil => simp [joinLines, joinWith]
    | cons y t =>
      have h' := ih (by simp)
      have hj : joinLines (x :: y :: t) = (x ++ ['\n']) ++ joinLines (y :: t) := rfl
      rw [hj]
      simp only [List.length_append, List.length_cons, sumLen_cons, List.length_nil] at h' ⊢
      omega

/-- Python's `content.split('\n')` (note: the empty string splits to `['']`). -/
def splitLines : List Char → List (List Char)
  | [] => [[]]
  | c :: cs =>
    if c = '\n' then
      [] :: splitLines cs
    else
      match splitLines cs with
      | [] => [[c]]
      | l :: ls => (c :: l) :: ls

theorem splitLines_ne_nil (l : List Char) : splitLines l ≠ [] := by
  cases l with
  | nil => simp [splitLines]
  | cons c cs =>
    simp only [splitLines]
    split
    · simp
    · split <;> simp

/-- Python's `str.strip()` (whitespace on both ends). -/
def strip (l : List Char) : List Char :=
  ((l.dropWhile isSpaceChar).reverse.dropWhile isSpaceChar).reverse

theorem dropWhile_idem (p : Char → Bool) (l : List Char) :
    (l.dropWhile p).dropWhile p = l.dropWhile p := by
  induction l with
  | nil => rfl
  | cons c cs ih =>
    by_cases h : p c
    · simpa [List.dropWhile, h] using ih
    · simp [List.dropWhile, h]

theorem dropWhile_eq_self_of_head (p : Char → Bool) :
    ∀ (l : List Char), (∀ c, l.head? = some c → ¬ p c) → l.dropWhile p = l := by
  intro l h
  cases l with
  | nil => rfl
  | cons c cs =>
    have := h c rfl
    simp [List.dropWhile, this]

theorem head_not_space_of_dropWhile_eq_self (p : Char → Bool) :
    ∀ (l : List Char), l.dropWhile p = l → ∀ c, l.head? = some c → ¬ p c := by
  intro l h c hc hp
  cases l with
  | nil => simp at hc
  | cons a as =>
    have hac : a = c := by simpa using hc
    rw [← hac] at hp
    have hstep : List.dropWhile p (a :: as) = List.dropWhile p as := by
      simp [List.dropWhile_cons, hp]
    rw [hstep] at h
    have hlen := congrArg List.length h
    have hle : (List.dropWhile p as).length ≤ as.length :=
      (List.dropWhile_suffix p).length_le
    simp at hlen
    omega

theorem strip_idem (l : List Char) : strip (strip l) = strip l := by
  unfold strip
  set A := l.dropWhile isSpaceChar with hA
  set R := A.reverse.dropWhile isSpaceChar with hR
  -- (1) `R.reverse` (= strip l) has no leading whitespace: it is a prefix of
  -- `A`, which has none.
  have hApre : A.dropWhile isSpaceChar = A := dropWhile_idem _ _
  have hRpref : R.reverse <+: A := by
    have hsuf : R <:+ A.reverse := by rw [hR]; exact List.dropWhile_suffix _
    have := List.reverse_prefix.mpr hsuf
    simpa using this
  have h1 : R.reverse.dropWhile isSpaceChar = R.reverse := by
    apply dropWhile_eq_self_of_head
    intro c hc
    obtain ⟨t, ht⟩ := hRpref
    have hcA : A.head? = some c := by
      cases hrev : R.reverse with
      | nil => rw [hrev] at hc; simp at hc
      | cons x xs =>
        rw [hrev] at hc
        simp at hc
        rw [← ht, hrev]
        simp [hc]
    exact head_not_space_of_dropWhile_eq_self _ A hApre c hcA
  rw [h1]
  -- (2) `R` itself has no leading whitespace (it is a `dropWhile` image).
  have h2 : R.reverse.reverse.dropWhile isSpaceChar = R := by
    rw [List.reverse_reverse, hR]
    exact dropWhile_idem _ _
  rw [h2]

/-!
## Boundary Classifier (`section_patterns` in `preprocess_rag_data.py`)

Each regex of `self.section_patterns` is matched with `re.match` (anchored
at the start of the line; lines contain no `'\n'`).  The five patterns are
embedded as decidable predicates on the line's characters.
-/

/-- `^#{1,6}\s+.*$` — markdown header: 1–6 leading `#` followed by whitespace. -/
def patHeader (line : List Char) : Bool :=
  let m := (line.takeWhile (fun c => c = '#')).length
  match line.drop m with
  | c :: _ => decide (1 ≤ m) && decide (m ≤ 6) && isSpaceChar c
  | [] => false

/-- `^\d+\.\s+.*$` — numbered list item: digits, a dot, then whitespace. -/
def patNumbered (line : List Char) : Bool :=
  let m := (line.takeWhile Char.isDigit).length
  match line.drop m with
  | '.' :: c :: _ => decide (1 ≤ m) && isSpaceChar c
  | _ => false

/-- `^-\s+.*$` — bullet point: a dash then whitespace. -/
def patBullet (line : List Char) : Bool :=
  match line with
  | '-' :: c :: _ => isSpaceChar c
  | _ => false

/-- `.*[.!?]\s*$` — the last non-whitespace character is `.`, `!` or `?`. -/
def patSentenceEnd (line : List Char) : Bool :=
  match line.reverse.dropWhile isSpaceChar with
  | c :: _ => c = '.' || c = '!' || c = '?'
  | [] => false

/-- `.*:\s*$` — the last non-whitespace character is `:`. -/
def patColonEnd (line : List Char) : Bool :=
  match line.reverse.dropWhile isSpaceChar with
  | c :: _ => c = ':'
  | [] => false

/-- `is_section_boundary`: `any(re.match(pattern, line) for pattern in
self.section_patterns)`. -/
def isBoundary (line : List Char) : Bool :=
  patHeader line || patNumbered line || patBullet line ||
    patSentenceEnd line || patColonEnd line

/-!
## Chunk Accumulator (`semantic_chunking`, `preprocess_rag_data.py` 104–157)

`target_chunk_size = 800`, `overlap_size = 100` (set in `__init__`); the
minimum-closure threshold `200` is hardcoded in the loop condition.
-/

/-- One raw chunk dict `{"content", "size", "start_line", "end_line"}`. -/
structure RawChunkSpan where
  content : List Char
  size : Nat
  start_line : Int
  end_line : Int
deriving DecidableEq

instance : Inhabited RawChunkSpan := ⟨⟨[], 0, 0, 0⟩⟩

/-- The chunk dict appended by `semantic_chunking` when the buffer
`current_chunk` is closed at 0-based line index `i`. -/
def mkSpan (buf : List (List Char)) (size : Nat) (i : Nat) : RawChunkSpan :=
  { content := joinLines buf
    size := size
    start_line := (i : Int) - buf.length + 1
    end_line := (i : Int) }

/-- The backward walk that collects `overlap_lines`: `j` runs from the end of
`current_chunk` to the front (here: over the reversed buffer), lines are taken
while the accumulated size stays `≤ overlap_size` (100) and the walk `break`s
at the first line that does not fit. -/
def overlapGo : List (List Char) → Nat → List (List Char) → List (List Char) × Nat
  | [], sz, acc => (acc, sz)
  | l :: rest, sz, acc =>
    if sz + l.length ≤ 100 then overlapGo rest (sz + l.length) (l :: acc)
    else (acc, sz)

/-- `overlap_lines, overlap_size` computed from the just-closed buffer. -/
def overlapWalk (buf : List (List Char)) : List (List Char) × Nat :=
  overlapGo buf.reverse 0 []

/-- The `while i < len(lines)` loop of `semantic_chunking`.  State:
remaining lines, current index `i`, `current_chunk`, `current_size`, and the
`chunks` list built so far. -/
def chunkLoop : List (List Char) → Nat → List (List Char) → Nat →
    List RawChunkSpan → List RawChunkSpan
  | [], i, currentChunk, currentSize, chunks =>
    -- after the loop: `if current_chunk: chunks.append(...)`
    if currentChunk ≠ [] then chunks ++ [mkSpan currentChunk currentSize i]
    else chunks
  | line :: rest, i, currentChunk, currentSize, chunks =>
    if (800 < currentSize + line.length ∧ currentChunk ≠ []) ∨
        (isBoundary line ∧ currentChunk ≠ [] ∧ 200 < currentSize) then
      let span := mkSpan currentChunk currentSize i
      let ov := overlapWalk currentChunk
      chunkLoop rest (i + 1) (ov.1 ++ [line]) (ov.2 + line.length)
        (chunks ++ [span])
    else
      chunkLoop rest (i + 1) (currentChunk ++ [line])
        (currentSize + line.length) chunks

/-- `semantic_chunking(content)` (the `hierarchy` argument is unused by the
chunking loop). -/
def semantic_chunking (content : List Char) : List RawChunkSpan :=
  chunkLoop (splitLines content) 0 [] 0 []

/-!
## Claim-side Chunk Accumulator

Definition written from the specification's words (claim C1): close exactly
on the stated condition, seed the next buffer with the maximal suffix of the
closed buffer whose total length does not exceed the overlap size 100, then
append the triggering line.
-/

/-- Longest suffix of `buf` whose total character length, added to the
already-committed `sz`, does not exceed 100. -/
def maxSuffixFrom (sz : Nat) : List (List Char) → List (List Char)
  | [] => []
  | l :: rest =>
    if sz + (l.length + sumLen rest) ≤ 100 then l :: rest
    else maxSuffixFrom sz rest

/-- The maximal suffix of the closed buffer's lines whose total length does
not exceed the overlap size 100 (specification wording). -/
def maxSuffix (buf : List (List Char)) : List (List Char) := maxSuffixFrom 0 buf

/-- Specification-side accumulator: the buffer's running size is recomputed
as `sumLen buf`; spans are produced in order. -/
def claimLoop : List (List Char) → Nat → List (List Char) → List RawChunkSpan
  | [], i, buf =>
    if buf ≠ [] then [mkSpan buf (sumLen buf) i] else []
  | line :: rest, i, buf =>
    if (800 < sumLen buf + line.length ∧ buf ≠ []) ∨
        (isBoundary line ∧ buf ≠ [] ∧ 200 < sumLen buf) then
      mkSpan buf (sumLen buf) i ::
        claimLoop rest (i + 1) (maxSuffix buf ++ [line])
    else
      claimLoop rest (i + 1) (buf ++ [line])

/-- Specification-side Chunk Accumulator over a line sequence. -/
def claimAccumulate (lines : List (List Char)) : List RawChunkSpan :=
  claimLoop lines 0 []

/-!
## Equivalence of the code-side and claim-side accumulators
-/

theorem maxSuffixFrom_snoc (sz : Nat) (ys : List (List Char)) (y : List Char) :
    maxSuffixFrom sz (ys ++ [y]) =
      if sz + y.length ≤ 100 then maxSuffixFrom (sz + y.length) ys ++ [y]
      else [] := by
  induction ys with
  | nil =>
    simp only [List.nil_append, maxSuffixFrom, sumLen_nil]
    split_ifs with h1 h2 h2 <;> first | rfl | omega
  | cons l rest ih =>
    have hcons : (l :: rest) ++ [y] = l :: (rest ++ [y]) := rfl
    have hunL : maxSuffixFrom sz (l :: (rest ++ [y]))
        = if sz + (l.length + sumLen (rest ++ [y])) ≤ 100 then l :: (rest ++ [y])
          else maxSuffixFrom sz (rest ++ [y]) := rfl
    have hunR : maxSuffixFrom (sz + y.length) (l :: rest)
        = if (sz + y.length) + (l.length + sumLen rest) ≤ 100 then l :: rest
          else maxSuffixFrom (sz + y.length) rest := rfl
    have hsum : sumLen (rest ++ [y]) = sumLen rest + y.length := by simp
    rw [hcons, hunL, ih]
    by_cases hall : sz + (l.length + sumLen (rest ++ [y])) ≤ 100
    · have hy : sz + y.length ≤ 100 := by rw [hsum] at hall; omega
      rw [if_pos hall, if_pos hy, hunR, if_pos (by rw [hsum] at hall; omega)]
      simp
    · rw [if_neg hall]
      by_cases hy : sz + y.length ≤ 100
      · rw [if_pos hy, if_pos hy, hunR, if_neg (by rw [hsum] at hall; omega)]
      · rw [if_neg hy, if_neg hy]

theorem overlapGo_spec : ∀ (rev : List (List Char)) (sz : Nat) (acc : List (List Char)),
    overlapGo rev sz acc =
      (maxSuffixFrom sz rev.reverse ++ acc, sz + sumLen (maxSuffixFrom sz rev.reverse)) := by
  intro rev
  induction rev with
  | nil => intro sz acc; simp [overlapGo, maxSuffixFrom]
  | cons l rest ih =>
    intro sz acc
    simp only [overlapGo, List.reverse_cons, maxSuffixFrom_snoc]
    by_cases h : sz + l.length ≤ 100
    · rw [if_pos h, if_pos h, ih]
      simp [List.append_assoc]
      omega
    · rw [if_neg h, if_neg h]
      simp

theorem overlapWalk_eq (buf : List (List Char)) :
    overlapWalk buf = (maxSuffix buf, sumLen (maxSuffix buf)) := by
  unfold overlapWalk maxSuffix
  rw [overlapGo_spec]
  simp

/-- The mutable-state loop of `semantic_chunking` computes, past the spans
already in `chunks`, exactly the claim-side accumulator's output (with the
running `current_size` equal to the buffer's total length). -/
theorem chunkLoop_eq_claimLoop :
    ∀ (lines : List (List Char)) (i : Nat) (buf : List (List Char))
      (acc : List RawChunkSpan),
      chunkLoop lines i buf (sumLen buf) acc = acc ++ claimLoop lines i buf := by
  intro lines
  induction lines with
  | nil =>
    intro i buf acc
    simp only [chunkLoop, claimLoop]
    split <;> simp
  | cons line rest ih =>
    intro i buf acc
    simp only [chunkLoop, claimLoop]
    by_cases hc : (800 < sumLen buf + line.length ∧ buf ≠ []) ∨
        (isBoundary line ∧ buf ≠ [] ∧ 200 < sumLen buf)
    · rw [if_pos hc, if_pos hc]
      rw [overlapWalk_eq]
      have hsz : sumLen (maxSuffix buf) + line.length
          = sumLen (maxSuffix buf ++ [line]) := by simp
      rw [hsz, ih]
      simp
    · rw [if_neg hc, if_neg hc]
      have hsz : sumLen buf + line.length = sumLen (buf ++ [line]) := by simp
      rw [hsz, ih]

theorem semantic_chunking_eq_claim (content : List Char) :
    semantic_chunking content = claimAccumulate (splitLines content) := by
  unfold semantic_chunking claimAccumulate
  have h := chunkLoop_eq_claimLoop (splitLines content) 0 [] []
  simpa using h

/-!
## Structural invariants of the accumulator (for claims C2 and C10)
-/

/-- Lines `a..b-1` (0-based, half-open) of a document's line list. -/
def lineSlice (doc : List (List Char)) (a b : Nat) : List (List Char) :=
  (doc.take b).drop a

theorem lineSlice_length (doc : List (List Char)) (a b : Nat)
    (hb : b ≤ doc.length) : (lineSlice doc a b).length = b - a := by
  unfold lineSlice
  simp [List.length_drop, List.length_take]
  omega

theorem lineSlice_snoc (doc : List (List Char)) (a i : Nat) (line : List Char)
    (ha : a ≤ i) (hlen : i < doc.length) (hi : doc[i]? = some line) :
    lineSlice doc a (i + 1) = lineSlice doc a i ++ [line] := by
  unfold lineSlice
  rw [List.take_succ, hi]
  rw [List.drop_append_of_le_length]
  · simp
  · simp [List.length_take]
    omega

theorem maxSuffixFrom_suffix (sz : Nat) :
    ∀ (l : List (List Char)), ∃ k, k ≤ l.length ∧ maxSuffixFrom sz l = l.drop k := by
  intro l
  induction l with
  | nil => exact ⟨0, by simp, rfl⟩
  | cons x rest ih =>
    by_cases h : sz + (x.length + sumLen rest) ≤ 100
    · exact ⟨0, by simp, by simp [maxSuffixFrom, h]⟩
    · obtain ⟨k, hk, heq⟩ := ih
      refine ⟨k + 1, by simp; omega, ?_⟩
      simp only [maxSuffixFrom, if_neg h, heq, List.drop_succ_cons]

/-- Auxiliary fact: the span `mkSpan buf (sumLen buf) i` emitted while the
buffer holds document lines `a..i-1` covers a non-empty in-bounds block. -/
theorem emitted_span_good (doc : List (List Char)) (i a : Nat) (buf : List (List Char))
    (hlen : a + buf.length = i) (hi : i ≤ doc.length) (hbuf : buf = lineSlice doc a i)
    (hne : buf ≠ []) :
    ∃ p q : Nat, p < q ∧ q ≤ doc.length ∧
      (mkSpan buf (sumLen buf) i).content = joinLines (lineSlice doc p q) ∧
      (mkSpan buf (sumLen buf) i).size = sumLen (lineSlice doc p q) ∧
      (mkSpan buf (sumLen buf) i).start_line = (p : Int) + 1 ∧
      (mkSpan buf (sumLen buf) i).end_line = (q : Int) := by
  have hlb : buf.length ≠ 0 := fun h => hne (List.length_eq_zero.mp h)
  refine ⟨a, i, by omega, hi, ?_, ?_, ?_, rfl⟩
  · show joinLines buf = joinLines (lineSlice doc a i)
    rw [hbuf]
  · show sumLen buf = sumLen (lineSlice doc a i)
    rw [hbuf]
  · show (i : Int) - buf.length + 1 = (a : Int) + 1
    omega

/-- Every span produced by the accumulator covers a non-empty, in-bounds
contiguous block of document lines: its text is the newline-join of lines
`p..q-1` (0-based), its size their total length, its recorded 1-based line
range is `p+1 .. q`. -/
theorem claimLoop_good (doc : List (List Char)) :
    ∀ (lines : List (List Char)) (i a : Nat) (buf : List (List Char)),
      a + buf.length = i → i ≤ doc.length →
      buf = lineSlice doc a i → lines = doc.drop i →
      ∀ s ∈ claimLoop lines i buf, ∃ p q : Nat, p < q ∧ q ≤ doc.length ∧
        s.content = joinLines (lineSlice doc p q) ∧
        s.size = sumLen (lineSlice doc p q) ∧
        s.start_line = (p : Int) + 1 ∧ s.end_line = (q : Int) := by
  intro lines
  induction lines with
  | nil =>
    intro i a buf hlen hi hbuf _ s hs
    simp only [claimLoop] at hs
    split at hs
    case isTrue hne =>
      have hsx : s = mkSpan buf (sumLen buf) i := by simpa using hs
      rw [hsx]
      obtain ⟨p, q, h1, h2, h3, h4, h5, h6⟩ :=
        emitted_span_good doc i a buf hlen hi hbuf hne
      exact ⟨p, q, h1, h2, h3, h4, h5, h6⟩
    case isFalse => simp at hs
  | cons line rest ih =>
    intro i a buf hlen hi hbuf hlines s hs
    have hlt : i < doc.length := by
      by_contra h
      push_neg at h
      have hnil : doc.drop i = [] := List.drop_eq_nil_of_le h
      rw [hnil] at hlines
      exact List.cons_ne_nil _ _ hlines
    have hgete : doc[i]? = some line := by
      rw [← List.head?_drop, ← hlines]
      rfl
    have hrest : rest = doc.drop (i + 1) := by
      rw [← List.tail_drop, ← hlines]
      rfl
    simp only [claimLoop] at hs
    split at hs
    case isTrue hc =>
      have hne : buf ≠ [] := by
        rcases hc with ⟨_, h⟩ | ⟨_, h, _⟩ <;> exact h
      rcases List.mem_cons.mp hs with hsx | hs'
      · rw [hsx]
        obtain ⟨p, q, h1, h2, h3, h4, h5, h6⟩ :=
          emitted_span_good doc i a buf hlen (le_of_lt hlt) hbuf hne
        exact ⟨p, q, h1, h2, h3, h4, h5, h6⟩
      · obtain ⟨k, hk, hmax⟩ := maxSuffixFrom_suffix 0 buf
        have hdropk : buf.drop k = lineSlice doc (a + k) i := by
          rw [hbuf]
          unfold lineSlice
          rw [List.drop_drop]
        have hbuf2 : maxSuffix buf ++ [line] = lineSlice doc (a + k) (i + 1) := by
          unfold maxSuffix
          rw [hmax, hdropk, lineSlice_snoc doc (a + k) i line (by omega) hlt hgete]
        refine ih (i + 1) (a + k) (maxSuffix buf ++ [line]) ?_ (by omega) hbuf2 hrest s hs'
        have hml : (maxSuffix buf).length = buf.length - k := by
          unfold maxSuffix
          rw [hmax, List.length_drop]
        simp only [List.length_append, List.length_cons, List.length_nil, hml]
        omega
    case isFalse =>
      have hbuf2 : buf ++ [line] = lineSlice doc a (i + 1) := by
        rw [hbuf, lineSlice_snoc doc a i line (by omega) hlt hgete]
      refine ih (i + 1) a (buf ++ [line]) ?_ (by omega) hbuf2 hrest s hs
      simp only [List.length_append, List.length_cons, List.length_nil]
      omega

/-- The first span the accumulator will emit from state `(i, buf)` starts at
1-based line `i - buf.length + 1` (the first buffered line). -/
theorem claimLoop_head :
    ∀ (lines : List (List Char)) (i : Nat) (buf : List (List Char)) (s : RawChunkSpan),
      (claimLoop lines i buf).head? = some s →
      s.start_line = (i : Int) - buf.length + 1 := by
  intro lines
  induction lines with
  | nil =>
    intro i buf s hs
    simp only [claimLoop] at hs
    split at hs
    · have : s = mkSpan buf (sumLen buf) i := by simpa using hs.symm
      rw [this]
      rfl
    · simp at hs
  | cons line rest ih =>
    intro i buf s hs
    simp only [claimLoop] at hs
    split at hs
    · have : s = mkSpan buf (sumLen buf) i := by simpa using hs.symm
      rw [this]
      rfl
    · have h := ih (i + 1) (buf ++ [line]) s hs
      simp only [List.length_append, List.length_cons, List.length_nil] at h
      rw [h]
      push_cast
      ring

/-- From a non-empty buffer the accumulator always emits at least one span. -/
theorem claimLoop_ne_nil :
    ∀ (lines : List (List Char)) (i : Nat) (buf : List (List Char)),
      buf ≠ [] → claimLoop lines i buf ≠ [] := by
  intro lines
  induction lines with
  | nil =>
    intro i buf hne
    simp only [claimLoop, if_pos hne]
    simp
  | cons line rest ih =>
    intro i buf hne
    simp only [claimLoop]
    split
    · simp
    · exact ih (i + 1) (buf ++ [line]) (by simp)

/-- On a non-empty line list the accumulator emits at least one span even
from an empty buffer (the final flush always fires). -/
theorem claimLoop_cons_ne_nil (line : List Char) (rest : List (List Char)) (i : Nat) :
    claimLoop (line :: rest) i [] ≠ [] := by
  simp only [claimLoop]
  split
  · simp
  · exact claimLoop_ne_nil rest (i + 1) [line] (by simp)

/-- The last emitted span always ends at the last document line:
1-based line `i + lines.length`. -/
theorem claimLoop_last :
    ∀ (lines : List (List Char)) (i : Nat) (buf : List (List Char)) (s : RawChunkSpan),
      (claimLoop lines i buf).getLast? = some s →
      s.end_line = (i : Int) + lines.length := by
  intro lines
  induction lines with
  | nil =>
    intro i buf s hs
    simp only [claimLoop] at hs
    split at hs
    · have : s = mkSpan buf (sumLen buf) i := by simpa using hs.symm
      rw [this]
      simp [mkSpan]
    · simp at hs
  | cons line rest ih =>
    intro i buf s hs
    simp only [claimLoop] at hs
    split at hs
    case isTrue hc =>
      have hne : maxSuffix buf ++ [line] ≠ [] := by simp
      have hrec := claimLoop_ne_nil rest (i + 1) (maxSuffix buf ++ [line]) hne
      cases hrecv : claimLoop rest (i + 1) (maxSuffix buf ++ [line]) with
      | nil => exact absurd hrecv hrec
      | cons y ys =>
        rw [hrecv, List.getLast?_cons_cons] at hs
        have h := ih (i + 1) (maxSuffix buf ++ [line]) s (by rw [hrecv]; exact hs)
        rw [h]
        push_cast
        simp only [List.length_cons]
        push_cast
        ring
    case isFalse =>
      have h := ih (i + 1) (buf ++ [line]) s hs
      rw [h]
      push_cast
      simp only [List.length_cons]
      push_cast
      ring

/-- Consecutive spans chain: each span starts no later than one line past the
previous span's end (the seeded overlap lines, if any, pull it earlier). -/
theorem claimLoop_chain :
    ∀ (lines : List (List Char)) (i : Nat) (buf : List (List Char)),
      (claimLoop lines i buf).Chain' (fun s t => t.start_line ≤ s.end_line + 1) := by
  intro lines
  induction lines with
  | nil =>
    intro i buf
    simp only [claimLoop]
    split
    · exact List.chain'_singleton _
    · exact List.chain'_nil
  | cons line rest ih =>
    intro i buf
    simp only [claimLoop]
    split
    · refine List.chain'_cons'.mpr ⟨?_, ih (i + 1) (maxSuffix buf ++ [line])⟩
      intro y hy
      have h := claimLoop_head rest (i + 1) (maxSuffix buf ++ [line]) y hy
      rw [h]
      show ((i : Int) + 1) - ((maxSuffix buf ++ [line]).length : Int) + 1
          ≤ (mkSpan buf (sumLen buf) i).end_line + 1
      have : (mkSpan buf (sumLen buf) i).end_line = (i : Int) := rfl
      rw [this]
      simp only [List.length_append, List.length_cons, List.length_nil]
      push_cast
      omega
    · exact ih (i + 1) (buf ++ [line])

/-- A chained span list whose first span starts at or before `k` and whose
last span ends at or after `k` contains a span covering `k`. -/
theorem chain_cover :
    ∀ (l : List RawChunkSpan) (k : Int),
      l.Chain' (fun s t => t.start_line ≤ s.end_line + 1) →
      (∀ s, l.head? = some s → s.start_line ≤ k) →
      (∀ s, l.getLast? = some s → k ≤ s.end_line) →
      l ≠ [] → ∃ s ∈ l, s.start_line ≤ k ∧ k ≤ s.end_line := by
  intro l
  induction l with
  | nil => intro k _ _ _ h; exact absurd rfl h
  | cons x t ih =>
    intro k hchain hhead hlast _
    cases t with
    | nil =>
      refine ⟨x, by simp, hhead x rfl, hlast x rfl⟩
    | cons y ys =>
      by_cases hk : k ≤ x.end_line
      · exact ⟨x, by simp, hhead x rfl, hk⟩
      · push_neg at hk
        have hxy : y.start_line ≤ x.end_line + 1 :=
          (List.chain'_cons'.mp hchain).1 y rfl
        have hchain' : (y :: ys).Chain' (fun s t => t.start_line ≤ s.end_line + 1) :=
          (List.chain'_cons'.mp hchain).2
        obtain ⟨s, hmem, h1, h2⟩ := ih k hchain'
          (fun s hs => by
            have : s = y := by simpa using hs.symm
            rw [this]; omega)
          (fun s hs => hlast s (by rw [List.getLast?_cons_cons]; exact hs))
          (by simp)
        exact ⟨s, by simp [hmem], h1, h2⟩

/-!
## Claim theorems: C1, C2, C6, C10
-/

/-- C1: for every sequence of document lines, the Chunk Accumulator
(`semantic_chunking` with target size 800 and overlap 100) closes the buffer
exactly on the stated size/boundary condition, seeds the next buffer with the
maximal suffix of the closed buffer whose total length does not exceed 100
followed by the triggering line, appends any non-closing line, and flushes a
non-empty final buffer: the code-side loop equals the claim-side procedure. -/
theorem c1_chunk_accumulator (lines : List (List Char)) :
    chunkLoop lines 0 [] 0 [] = claimAccumulate lines := by
  unfold claimAccumulate
  have h := chunkLoop_eq_claimLoop lines 0 [] []
  simpa using h

/-- C2 counterexample: on the two-line document `"a\nb"` the single emitted
span records `size = 2` (sum of the line lengths) while its text
`"a\nb"` has length 3, so `charSize == len(text)` fails. -/
theorem c2_counterexample :
    semantic_chunking (str "a\nb") = [⟨str "a\nb", 2, 1, 2⟩] ∧
    ¬ ((⟨str "a\nb", 2, 1, 2⟩ : RawChunkSpan).size
        = (⟨str "a\nb", 2, 1, 2⟩ : RawChunkSpan).content.length) := by
  constructor
  · decide
  · decide

/-- C2 (amended): every emitted span satisfies
`len(text) = charSize + (endLine - startLine)` — the recorded size counts the
characters of the span's lines but not the `endLine - startLine` newline
separators introduced by the join — and `startLine ≤ endLine`. -/
theorem c2_span_size_invariant (content : List Char) :
    ∀ s ∈ semantic_chunking content,
      (s.content.length : Int) = (s.size : Int) + (s.end_line - s.start_line) ∧
      s.start_line ≤ s.end_line := by
  intro s hs
  rw [semantic_chunking_eq_claim] at hs
  unfold claimAccumulate at hs
  obtain ⟨p, q, hpq, hq, hcont, hsize, hstart, hend⟩ :=
    claimLoop_good (splitLines content) (splitLines content) 0 0 []
      (by simp) (by simp) rfl (by simp) s hs
  have hslen : (lineSlice (splitLines content) p q).length = q - p :=
    lineSlice_length _ _ _ hq
  have hne : lineSlice (splitLines content) p q ≠ [] := by
    intro h
    rw [h] at hslen
    simp at hslen
    omega
  have hjoin := joinLines_length _ hne
  rw [hslen] at hjoin
  constructor
  · rw [hcont, hsize, hstart, hend]
    omega
  · rw [hstart, hend]
    omega

/-- C2 witness: the amended invariant evaluated on the concrete document
`"a\nb"` and its single span. -/
theorem c2_witness :
    (⟨str "a\nb", 2, 1, 2⟩ : RawChunkSpan) ∈ semantic_chunking (str "a\nb") ∧
    (((⟨str "a\nb", 2, 1, 2⟩ : RawChunkSpan).content.length : Int)
        = ((⟨str "a\nb", 2, 1, 2⟩ : RawChunkSpan).size : Int)
          + ((⟨str "a\nb", 2, 1, 2⟩ : RawChunkSpan).end_line
              - (⟨str "a\nb", 2, 1, 2⟩ : RawChunkSpan).start_line)) ∧
    (⟨str "a\nb", 2, 1, 2⟩ : RawChunkSpan).start_line
      ≤ (⟨str "a\nb", 2, 1, 2⟩ : RawChunkSpan).end_line := by
  have hmem : (⟨str "a\nb", 2, 1, 2⟩ : RawChunkSpan) ∈ semantic_chunking (str "a\nb") := by
    decide
  have h := c2_span_size_invariant (str "a\nb") _ hmem
  exact ⟨hmem, h.1, h.2⟩

/-- C6 counterexample: the empty document does not produce zero spans —
`semantic_chunking ""` emits one span. -/
theorem c6_counterexample : (semantic_chunking (str "")).length ≠ 0 := by
  decide

/-- C6 (amended): the empty document produces exactly one span, whose text is
empty, whose size is 0, and which covers line 1 (Python's `''.split('\n')`
yields the single line `''`, which the final flush always emits). -/
theorem c6_empty_document : semantic_chunking (str "") = [⟨[], 0, 1, 1⟩] := by
  decide

/-- Consecutive spans share exactly the seeded overlap lines: the successor
span starts precisely `(maxSuffix of the predecessor's lines).length` lines
before the line following the predecessor's end, and the shared line range
`[t.start, s.end]` is, as a slice of the document, exactly the maximal
suffix of the predecessor's lines whose total length does not exceed 100 —
the lines seeded into the next buffer at closure. -/
theorem claimLoop_chain_seeded (doc : List (List Char)) :
    ∀ (lines : List (List Char)) (i a : Nat) (buf : List (List Char)),
      a + buf.length = i → i ≤ doc.length →
      buf = lineSlice doc a i → lines = doc.drop i →
      (claimLoop lines i buf).Chain' (fun s t =>
        t.start_line = s.end_line + 1
          - ((maxSuffix (lineSlice doc (s.start_line.toNat - 1)
              s.end_line.toNat)).length : Int) ∧
        lineSlice doc (t.start_line.toNat - 1) s.end_line.toNat
          = maxSuffix (lineSlice doc (s.start_line.toNat - 1) s.end_line.toNat)) := by
  intro lines
  induction lines with
  | nil =>
    intro i a buf _ _ _ _
    simp only [claimLoop]
    split
    · exact List.chain'_singleton _
    · exact List.chain'_nil
  | cons line rest ih =>
    intro i a buf hlen hi hbuf hlines
    have hlt : i < doc.length := by
      by_contra h
      push_neg at h
      have hnil : doc.drop i = [] := List.drop_eq_nil_of_le h
      rw [hnil] at hlines
      exact List.cons_ne_nil _ _ hlines
    have hgete : doc[i]? = some line := by
      rw [← List.head?_drop, ← hlines]
      rfl
    have hrest : rest = doc.drop (i + 1) := by
      rw [← List.tail_drop, ← hlines]
      rfl
    simp only [claimLoop]
    split
    case isTrue hc =>
      have hne : buf ≠ [] := by
        rcases hc with ⟨_, h⟩ | ⟨_, h, _⟩ <;> exact h
      have hlb : buf.length ≠ 0 := fun h => hne (List.length_eq_zero.mp h)
      obtain ⟨k, hk, hmax⟩ := maxSuffixFrom_suffix 0 buf
      have holen : (maxSuffix buf).length = buf.length - k := by
        unfold maxSuffix
        rw [hmax, List.length_drop]
      have hdropk : buf.drop k = lineSlice doc (a + k) i := by
        rw [hbuf]
        unfold lineSlice
        rw [List.drop_drop]
      have hbuf2 : maxSuffix buf ++ [line] = lineSlice doc (a + k) (i + 1) := by
        unfold maxSuffix
        rw [hmax, hdropk, lineSlice_snoc doc (a + k) i line (by omega) hlt hgete]
      have hlen2 : (a + k) + (maxSuffix buf ++ [line]).length = i + 1 := by
        simp only [List.length_append, List.length_cons, List.length_nil, holen]
        omega
      refine List.chain'_cons'.mpr
        ⟨?_, ih (i + 1) (a + k) (maxSuffix buf ++ [line]) hlen2 (by omega) hbuf2 hrest⟩
      intro y hy
      have hhead := claimLoop_head rest (i + 1) (maxSuffix buf ++ [line]) y hy
      have hsA : (mkSpan buf (sumLen buf) i).start_line.toNat - 1 = a := by
        show ((i : Int) - buf.length + 1).toNat - 1 = a
        omega
      have hsB : (mkSpan buf (sumLen buf) i).end_line.toNat = i := by
        show ((i : Nat) : Int).toNat = i
        simp
      have hslice : lineSlice doc ((mkSpan buf (sumLen buf) i).start_line.toNat - 1)
          ((mkSpan buf (sumLen buf) i).end_line.toNat) = buf := by
        rw [hsA, hsB, ← hbuf]
      have hyA : y.start_line.toNat - 1 = a + k := by
        rw [hhead]
        simp only [List.length_append, List.length_cons, List.length_nil, holen]
        omega
      constructor
      · rw [hslice, hhead]
        show ((i + 1 : Nat) : Int) - ((maxSuffix buf ++ [line]).length : Int) + 1
            = (i : Int) + 1 - ((maxSuffix buf).length : Int)
        simp only [List.length_append, List.length_cons, List.length_nil]
        push_cast
        ring
      · rw [hslice, hsB, hyA, ← hdropk]
        exact hmax.symm
    case isFalse =>
      have hbuf2 : buf ++ [line] = lineSlice doc a (i + 1) := by
        rw [hbuf, lineSlice_snoc doc a i line (by omega) hlt hgete]
      refine ih (i + 1) a (buf ++ [line]) ?_ (by omega) hbuf2 hrest
      simp only [List.length_append, List.length_cons, List.length_nil]
      omega

/-- C10: every span's text is the newline-join of the document lines
`startLine..endLine` (1-based, inclusive); the first span starts at line 1,
the last span ends at the document's line count, each later span starts at
most one line past its predecessor's end, every document line is covered
by at least one span, and consecutive spans overlap exactly in the seeded
overlap lines: each successor starts `(maxSuffix of the predecessor's
lines).length` lines before the line after the predecessor's end, and the
shared line slice equals that maximal suffix. -/
theorem c10_span_line_coverage (content : List Char) :
    (∀ s ∈ semantic_chunking content,
        s.content = joinLines (lineSlice (splitLines content)
          (s.start_line.toNat - 1) s.end_line.toNat)) ∧
    (∀ s, (semantic_chunking content).head? = some s → s.start_line = 1) ∧
    (∀ s, (semantic_chunking content).getLast? = some s →
        s.end_line = ((splitLines content).length : Int)) ∧
    (semantic_chunking content).Chain' (fun s t => t.start_line ≤ s.end_line + 1) ∧
    (∀ k : Int, 1 ≤ k → k ≤ ((splitLines content).length : Int) →
        ∃ s ∈ semantic_chunking content, s.start_line ≤ k ∧ k ≤ s.end_line) ∧
    (semantic_chunking content).Chain' (fun s t =>
      t.start_line = s.end_line + 1
        - ((maxSuffix (lineSlice (splitLines content) (s.start_line.toNat - 1)
            s.end_line.toNat)).length : Int) ∧
      lineSlice (splitLines content) (t.start_line.toNat - 1) s.end_line.toNat
        = maxSuffix (lineSlice (splitLines content) (s.start_line.toNat - 1)
            s.end_line.toNat)) := by
  have heq : semantic_chunking content = claimLoop (splitLines content) 0 [] := by
    rw [semantic_chunking_eq_claim]
    rfl
  refine ⟨?_, ?_, ?_, ?_, ?_, ?_⟩
  · intro s hs
    rw [heq] at hs
    obtain ⟨p, q, hpq, hq, hcont, _, hstart, hend⟩ :=
      claimLoop_good (splitLines content) (splitLines content) 0 0 []
        (by simp) (by simp) rfl (by simp) s hs
    have h1 : s.start_line.toNat - 1 = p := by rw [hstart]; omega
    have h2 : s.end_line.toNat = q := by rw [hend]; omega
    rw [hcont, h1, h2]
  · intro s hs
    rw [heq] at hs
    have h := claimLoop_head (splitLines content) 0 [] s hs
    rw [h]
    simp
  · intro s hs
    rw [heq] at hs
    have h := claimLoop_last (splitLines content) 0 [] s hs
    rw [h]
    simp
  · rw [heq]
    exact claimLoop_chain (splitLines content) 0 []
  · intro k hk1 hk2
    rw [heq]
    have hne : claimLoop (splitLines content) 0 [] ≠ [] := by
      cases hdoc : splitLines content with
      | nil => exact absurd hdoc (splitLines_ne_nil content)
      | cons d ds => exact claimLoop_cons_ne_nil d ds 0
    refine chain_cover _ k (claimLoop_chain _ 0 [])
      (fun s hs => ?_) (fun s hs => ?_) hne
    · have h := claimLoop_head (splitLines content) 0 [] s hs
      rw [h]
      simp
      omega
    · have h := claimLoop_last (splitLines content) 0 [] s hs
      rw [h]
      simp
      omega
  · rw [heq]
    exact claimLoop_chain_seeded (splitLines content) (splitLines content) 0 0 []
      (by simp) (by simp) rfl (by simp)

/-- C10 witness: the coverage facts evaluated on the concrete two-line
document `"x\ny"`, whose single span is `⟨"x\ny", 2, 1, 2⟩`. -/
theorem c10_witness :
    ((⟨str "x\ny", 2, 1, 2⟩ : RawChunkSpan).content
      = joinLines (lineSlice (splitLines (str "x\ny"))
          ((⟨str "x\ny", 2, 1, 2⟩ : RawChunkSpan).start_line.toNat - 1)
          (⟨str "x\ny", 2, 1, 2⟩ : RawChunkSpan).end_line.toNat)) ∧
    (⟨str "x\ny", 2, 1, 2⟩ : RawChunkSpan).start_line = 1 := by
  constructor
  · exact (c10_span_line_coverage (str "x\ny")).1 _ (by decide)
  · exact (c10_span_line_coverage (str "x\ny")).2.1 _ (by decide)

/-!
## Representation Generator: summary (`generate_summary`, lines 189–209)

`re.split(r'[.!?]\s*', content)`: the text is cut at every single `.`/`!`/`?`
together with the maximal whitespace run following it.  `reSplitGo` scans the
characters with a flag recording whether it is inside such a whitespace run.
-/

/-- Scanner for `re.split(r'[.!?]\s*', ...)`; `skipMode` is true immediately
after a delimiter character while its trailing whitespace is consumed. -/
def reSplitGo : Bool → List Char → List (List Char)
  | _, [] => [[]]
  | skipMode, c :: cs =>
    if skipMode && isSpaceChar c then reSplitGo true cs
    else if c = '.' || c = '!' || c = '?' then [] :: reSplitGo true cs
    else
      match reSplitGo false cs with
      | [] => [[c]]
      | p :: ps => (c :: p) :: ps

/-- `sentences = re.split(r'[.!?]\s*', content)`. -/
def reSplitSent (content : List Char) : List (List Char) := reSplitGo false content

/-- Python's `max(seq, key=len)` left fold: keeps the earlier element on
ties (strict `<` to replace). -/
def maxByLenAux : List (List Char) → List Char → List Char
  | [], best => best
  | x :: xs, best => maxByLenAux xs (if best.length < x.length then x else best)

/-- `max(sentences[1:-1], key=len, default="")`. -/
def maxByLen (l : List (List Char)) : List Char := maxByLenAux l []

/-- Python's `if s and s not in summary_parts: summary_parts.append(s)`. -/
def pyAppendIfNew (parts : List (List Char)) (s : List Char) : List (List Char) :=
  if s ≠ [] ∧ s ∉ parts then parts ++ [s] else parts

/-- The claim's selection step: omit a selected sentence only when it is
textually identical to an already-selected one (no emptiness filter). -/
def claimAppendIfNew (parts : List (List Char)) (s : List Char) : List (List Char) :=
  if s ∉ parts then parts ++ [s] else parts

/-- The amended selection step: omit a selected sentence when it is empty or
textually identical to an already-selected one. -/
def addSummaryPart (parts : List (List Char)) (s : List Char) : List (List Char) :=
  if s = [] ∨ s ∈ parts then parts else parts ++ [s]

/-- The summary routine, parametrised by the selection step used for the
longest interior sentence and the last sentence. -/
def summaryCore (app : List (List Char) → List Char → List (List Char))
    (content : List Char) : List Char :=
  let sentences := reSplitSent content
  if sentences.length ≤ 3 then
    if 200 < content.length then content.take 200 ++ str "..." else content
  else
    match sentences with
    | [] => content
    | s0 :: rest =>
      let longest := maxByLen rest.dropLast
      let lastS := rest.getLastD []
      let parts := app (app [s0] longest) lastS
      let summary := joinWith (str ". ") parts
      if 300 < summary.length then summary.take 300 ++ str "..." else summary

/-- `generate_summary(content)` — the code's selection step drops an empty
or already-selected sentence. -/
def generate_summary (content : List Char) : List Char :=
  summaryCore pyAppendIfNew content

/-- The summary procedure exactly as claim C4 states it (duplicates dropped,
empties kept). -/
def claimSummary (content : List Char) : List Char :=
  summaryCore claimAppendIfNew content

/-- The summary procedure as amended (duplicates and empties dropped). -/
def amendedSummary (content : List Char) : List Char :=
  summaryCore addSummaryPart content

/-- C4 counterexample: on `"a.bb.c.d."` the split is
`["a","bb","c","d",""]`; the code silently drops the empty last sentence and
returns `"a. bb"`, while the claim's procedure keeps it (it is not identical
to any selected sentence) and returns `"a. bb. "`. -/
theorem c4_counterexample :
    generate_summary (str "a.bb.c.d.") = str "a. bb" ∧
    claimSummary (str "a.bb.c.d.") = str "a. bb. " ∧
    generate_summary (str "a.bb.c.d.") ≠ claimSummary (str "a.bb.c.d.") := by
  refine ⟨by decide, by decide, by decide⟩

/-- C4 (amended): `generate_summary` follows the claimed procedure with the
single amendment that a selected longest/last sentence is also omitted when
it is empty. -/
theorem c4_summary_spec (content : List Char) :
    generate_summary content = amendedSummary content := by
  unfold generate_summary amendedSummary
  have h : pyAppendIfNew = addSummaryPart := by
    funext parts s
    unfold pyAppendIfNew addSummaryPart
    split_ifs with h1 h2 <;> first | rfl | tauto
  rw [h]

/-!
## Representation Generator: keywords (`generate_keywords`, lines 170–187)

`re.findall(r'[가-힣]{2,8}', content)` greedily cuts each maximal Hangul run
into non-overlapping pieces of up to 8 characters, discarding pieces shorter
than 2.  `word_freq` models the insertion-ordered Python dict: its items are
the distinct tokens in first-occurrence order, each with its occurrence
count.  `sortDesc` models `sorted(..., key=freq, reverse=True)` (a stable
descending sort).
-/

/-- Hangul-syllable test for the character class `[가-힣]`. -/
def isHangul (c : Char) : Bool := '가' ≤ c && c ≤ '힣'

/-- Take up to `n` leading Hangul characters; return them and the rest. -/
def grabHangul : List Char → Nat → List Char × List Char
  | [], _ => ([], [])
  | c :: cs, 0 => ([], c :: cs)
  | c :: cs, n + 1 =>
    if isHangul c then
      let p := grabHangul cs n
      (c :: p.1, p.2)
    else ([], c :: cs)

/-- The `re.findall(r'[가-힣]{2,8}', ...)` scan; the fuel argument (always
instantiated with the input length, which the scan never exceeds) makes the
recursion structural. -/
def findall28Go : Nat → List Char → List (List Char)
  | 0, _ => []
  | _ + 1, [] => []
  | fuel + 1, c :: cs =>
    if isHangul c then
      let p := grabHangul cs 7
      if 1 ≤ p.1.length then (c :: p.1) :: findall28Go fuel p.2
      else findall28Go fuel cs
    else findall28Go fuel cs

/-- `korean_nouns = re.findall(r'[가-힣]{2,8}', content)`. -/
def findall28 (content : List Char) : List (List Char) :=
  findall28Go content.length content

/-- Distinct elements in first-occurrence order (the key order of a Python
dict filled by `word_freq[word] = word_freq.get(word, 0) + 1`). -/
def dedupFirstGo : List (List Char) → List (List Char) → List (List Char)
  | [], _ => []
  | w :: ws, seen =>
    if w ∈ seen then dedupFirstGo ws seen
    else w :: dedupFirstGo ws (w :: seen)

/-- `word_freq.items()`: distinct tokens in first-occurrence order, each
paired with its total occurrence count among the candidate tokens. -/
def word_freq (tokens : List (List Char)) : List (List Char × Nat) :=
  (dedupFirstGo tokens []).map (fun w => (w, tokens.count w))

/-- Stable insertion into a descending-by-count list: the inserted element
precedes later elements of equal count. -/
def insertDesc (p : List Char × Nat) : List (List Char × Nat) → List (List Char × Nat)
  | [] => [p]
  | q :: rest => if p.2 < q.2 then q :: insertDesc p rest else p :: q :: rest

/-- `sorted(word_freq.items(), key=lambda x: x[1], reverse=True)` — a stable
descending sort by count. -/
def sortDesc : List (List Char × Nat) → List (List Char × Nat)
  | [] => []
  | p :: rest => insertDesc p (sortDesc rest)

/-- `generate_keywords(content)`:
`[word for word, freq in sorted_words[:20] if freq > 1]`. -/
def generate_keywords (content : List Char) : List (List Char) :=
  (((sortDesc (word_freq (findall28 content))).take 20).filter
    (fun p => 1 < p.2)).map Prod.fst

theorem grabHangul_bounds :
    ∀ (l : List Char) (n : Nat),
      (grabHangul l n).1.length ≤ n ∧ (grabHangul l n).2.length ≤ l.length := by
  intro l
  induction l with
  | nil => intro n; cases n <;> simp [grabHangul]
  | cons c cs ih =>
    intro n
    cases n with
    | zero => simp [grabHangul]
    | succ m =>
      by_cases h : isHangul c
      · have h' := ih m
        simp only [grabHangul, if_pos h, List.length_cons]
        constructor
        · omega
        · exact Nat.le_succ_of_le h'.2
      · simp [grabHangul, h]

theorem findall28Go_shape :
    ∀ (fuel : Nat) (l : List Char) (t : List Char),
      t ∈ findall28Go fuel l → 2 ≤ t.length ∧ t.length ≤ 8 := by
  intro fuel
  induction fuel with
  | zero => intro l t ht; simp [findall28Go] at ht
  | succ f ih =>
    intro l t ht
    cases l with
    | nil => simp [findall28Go] at ht
    | cons c cs =>
      simp only [findall28Go] at ht
      by_cases h : isHangul c
      · rw [if_pos h] at ht
        by_cases hl : 1 ≤ (grabHangul cs 7).1.length
        · rw [if_pos hl] at ht
          rcases List.mem_cons.mp ht with hx | hx
          · have hb := (grabHangul_bounds cs 7).1
            rw [hx]
            simp only [List.length_cons]
            omega
          · exact ih _ t hx
        · rw [if_neg hl] at ht
          exact ih cs t ht
      · rw [if_neg h] at ht
        exact ih cs t ht

theorem dedupFirstGo_mem :
    ∀ (ws seen : List (List Char)) (w : List Char),
      w ∈ dedupFirstGo ws seen → w ∈ ws ∧ w ∉ seen := by
  intro ws
  induction ws with
  | nil => intro seen w h; simp [dedupFirstGo] at h
  | cons x xs ih =>
    intro seen w h
    simp only [dedupFirstGo] at h
    by_cases hx : x ∈ seen
    · rw [if_pos hx] at h
      have := ih seen w h
      exact ⟨List.mem_cons_of_mem _ this.1, this.2⟩
    · rw [if_neg hx] at h
      rcases List.mem_cons.mp h with hw | hw
      · exact ⟨by rw [hw]; exact List.mem_cons_self _ _, by rw [hw]; exact hx⟩
      · have := ih (x :: seen) w hw
        exact ⟨List.mem_cons_of_mem _ this.1,
          fun hc => this.2 (List.mem_cons_of_mem _ hc)⟩

theorem dedupFirstGo_nodup :
    ∀ (ws seen : List (List Char)), (dedupFirstGo ws seen).Nodup := by
  intro ws
  induction ws with
  | nil => intro seen; simp [dedupFirstGo]
  | cons x xs ih =>
    intro seen
    simp only [dedupFirstGo]
    by_cases hx : x ∈ seen
    · rw [if_pos hx]; exact ih seen
    · rw [if_neg hx]
      refine List.nodup_cons.mpr ⟨?_, ih (x :: seen)⟩
      intro hc
      exact (dedupFirstGo_mem xs (x :: seen) x hc).2 (List.mem_cons_self _ _)

theorem insertDesc_perm (p : List Char × Nat) :
    ∀ (l : List (List Char × Nat)), (insertDesc p l).Perm (p :: l) := by
  intro l
  induction l with
  | nil => simp [insertDesc]
  | cons q rest ih =>
    simp only [insertDesc]
    by_cases h : p.2 < q.2
    · rw [if_pos h]
      exact (List.Perm.cons q ih).trans (List.Perm.swap p q rest)
    · rw [if_neg h]

theorem sortDesc_perm :
    ∀ (l : List (List Char × Nat)), (sortDesc l).Perm l := by
  intro l
  induction l with
  | nil => simp [sortDesc]
  | cons p rest ih =>
    exact (insertDesc_perm p (sortDesc rest)).trans (List.Perm.cons p ih)

theorem insertDesc_pairwise (p : List Char × Nat) :
    ∀ (l : List (List Char × Nat)),
      l.Pairwise (fun a b => b.2 ≤ a.2) →
      (insertDesc p l).Pairwise (fun a b => b.2 ≤ a.2) := by
  intro l
  induction l with
  | nil => intro _; simp [insertDesc]
  | cons q rest ih =>
    intro hl
    have hq := (List.pairwise_cons.mp hl).1
    have hrest := (List.pairwise_cons.mp hl).2
    simp only [insertDesc]
    by_cases h : p.2 < q.2
    · rw [if_pos h]
      refine List.pairwise_cons.mpr ⟨?_, ih hrest⟩
      intro b hb
      have hb' := (insertDesc_perm p rest).mem_iff.mp hb
      rcases List.mem_cons.mp hb' with hbp | hbr
      · rw [hbp]; omega
      · exact hq b hbr
    · rw [if_neg h]
      refine List.pairwise_cons.mpr ⟨?_, hl⟩
      intro b hb
      rcases List.mem_cons.mp hb with hbq | hbr
      · rw [hbq]; omega
      · have := hq b hbr; omega

theorem sortDesc_pairwise :
    ∀ (l : List (List Char × Nat)),
      (sortDesc l).Pairwise (fun a b => b.2 ≤ a.2) := by
  intro l
  induction l with
  | nil => simp [sortDesc]
  | cons p rest ih => exact insertDesc_pairwise p (sortDesc rest) ih

/-- C5: keyword extraction returns at most 20 tokens; each returned token has
2–8 characters, occurs more than once among the candidate tokens, appears
only once in the result, and the result is ordered by descending frequency. -/
theorem c5_keyword_extraction (content : List Char) :
    (generate_keywords content).length ≤ 20 ∧
    (generate_keywords content).Nodup ∧
    (∀ w ∈ generate_keywords content,
        2 ≤ w.length ∧ w.length ≤ 8 ∧ 1 < (findall28 content).count w) ∧
    (generate_keywords content).Pairwise
      (fun a b => (findall28 content).count b ≤ (findall28 content).count a) := by
  have hkw : generate_keywords content
      = (((sortDesc (word_freq (findall28 content))).take 20).filter
          (fun p => 1 < p.2)).map Prod.fst := rfl
  have hmemfl : ∀ p ∈ ((sortDesc (word_freq (findall28 content))).take 20).filter
      (fun p => 1 < p.2), p ∈ word_freq (findall28 content) := by
    intro p hp
    have h1 : p ∈ (sortDesc (word_freq (findall28 content))).take 20 :=
      List.mem_of_mem_filter hp
    have h2 : p ∈ sortDesc (word_freq (findall28 content)) :=
      List.mem_of_mem_take h1
    exact (sortDesc_perm _).mem_iff.mp h2
  have hflfact : ∀ p ∈ word_freq (findall28 content),
      p.2 = (findall28 content).count p.1 ∧ p.1 ∈ findall28 content := by
    intro p hp
    unfold word_freq at hp
    obtain ⟨w, hw, hpe⟩ := List.mem_map.mp hp
    have hmem := dedupFirstGo_mem (findall28 content) [] w hw
    constructor
    · rw [← hpe]
    · rw [← hpe]
      exact hmem.1
  have hsub : (((sortDesc (word_freq (findall28 content))).take 20).filter
      (fun p => 1 < p.2)).Sublist (sortDesc (word_freq (findall28 content))) :=
    (List.filter_sublist _).trans (List.take_sublist _ _)
  refine ⟨?_, ?_, ?_, ?_⟩
  · rw [hkw]
    rw [List.length_map]
    calc (((sortDesc (word_freq (findall28 content))).take 20).filter
          (fun p => 1 < p.2)).length
        ≤ ((sortDesc (word_freq (findall28 content))).take 20).length :=
          List.length_filter_le _ _
      _ ≤ 20 := List.length_take_le _ _
  · rw [hkw]
    have hnfl : ((word_freq (findall28 content)).map Prod.fst).Nodup := by
      unfold word_freq
      rw [List.map_map]
      have hcomp : (Prod.fst ∘ fun w => (w, (findall28 content).count w))
          = fun w => w := by
        funext w
        rfl
      rw [hcomp]
      simpa using dedupFirstGo_nodup (findall28 content) []
    have hnst : ((sortDesc (word_freq (findall28 content))).map Prod.fst).Nodup :=
      (((sortDesc_perm _).map Prod.fst).symm).nodup hnfl
    exact List.Nodup.sublist (hsub.map Prod.fst) hnst
  · rw [hkw]
    intro w hw
    obtain ⟨p, hp, hpw⟩ := List.mem_map.mp hw
    have hfacts := hflfact p (hmemfl p hp)
    have hcount : 1 < p.2 := by simpa using List.of_mem_filter hp
    have hshape := findall28Go_shape content.length content p.1 hfacts.2
    rw [← hpw]
    exact ⟨hshape.1, hshape.2, by rw [← hfacts.1]; exact hcount⟩
  · rw [hkw]
    have hp2 : (((sortDesc (word_freq (findall28 content))).take 20).filter
        (fun p => 1 < p.2)).Pairwise (fun a b => b.2 ≤ a.2) :=
      List.Pairwise.sublist hsub (sortDesc_pairwise _)
    have hp3 : (((sortDesc (word_freq (findall28 content))).take 20).filter
        (fun p => 1 < p.2)).Pairwise
        (fun a b => (findall28 content).count b.1 ≤ (findall28 content).count a.1) := by
      refine hp2.imp_of_mem ?_
      intro a b ha hb hr
      rw [← (hflfact a (hmemfl a ha)).1, ← (hflfact b (hmemfl b hb)).1]
      exact hr
    exact List.pairwise_map.mpr hp3

/-- C5 witness: on the text `"가나 가나"` the token `"가나"` is extracted
(frequency 2) and satisfies all claimed bounds. -/
theorem c5_witness :
    str "가나" ∈ generate_keywords (str "가나 가나") ∧
    2 ≤ (str "가나").length ∧ (str "가나").length ≤ 8 ∧
    1 < (findall28 (str "가나 가나")).count (str "가나") := by
  have hmem : str "가나" ∈ generate_keywords (str "가나 가나") := by decide
  have h := (c5_keyword_extraction (str "가나 가나")).2.2.1 _ hmem
  exact ⟨hmem, h.1, h.2.1, h.2.2⟩

/-!
## Context Linker (`get_context`, lines 236–248)
-/

/-- Python's `s[-n:]` slice. -/
def pyTail (n : Nat) (l : List Char) : List Char := l.drop (l.length - n)

/-- `get_context(chunks, current_index)`: the pair
`(prev_content, next_content)`.  The ellipsis `"..."` is appended after the
previous chunk's tail and prepended before the next chunk's head
unconditionally. -/
def get_context (chunks : List RawChunkSpan) (i : Nat) : List Char × List Char :=
  let prev := if 0 < i then
    pyTail 200 ((chunks.getD (i - 1) default).content) ++ str "..." else []
  let nxt := if i < chunks.length - 1 then
    str "..." ++ ((chunks.getD (i + 1) default).content).take 200 else []
  (prev, nxt)

/-- C3 counterexample: with two chunks of untruncated one-character texts,
`prev_content` of chunk 1 is `"a..."`, carrying an ellipsis even though no
truncation occurred (and on the trailing side), so the claimed preview `"a"`
is wrong. -/
theorem c3_counterexample :
    (get_context [⟨str "a", 1, 1, 1⟩, ⟨str "b", 1, 2, 2⟩] 1).1 = str "a..." ∧
    (get_context [⟨str "a", 1, 1, 1⟩, ⟨str "b", 1, 2, 2⟩] 1).1 ≠ str "a" := by
  refine ⟨by decide, by decide⟩

/-- C3 (amended): first chunk's `prev` and last chunk's `next` are empty; for
`i > 0`, `prev` is the trailing at-most-200 characters of chunk `i-1`'s text
followed by an unconditional ellipsis marker, hence non-empty; for
`i < len-1`, `next` is an unconditional ellipsis marker followed by the
leading at-most-200 characters of chunk `i+1`'s text, hence non-empty. -/
theorem c3_context_previews (chunks : List RawChunkSpan) (i : Nat)
    (h : i < chunks.length) :
    (i = 0 → (get_context chunks i).1 = []) ∧
    (0 < i →
      (get_context chunks i).1
        = pyTail 200 ((chunks.getD (i - 1) default).content) ++ str "..." ∧
      (get_context chunks i).1 ≠ [] ∧
      (pyTail 200 ((chunks.getD (i - 1) default).content)).length ≤ 200) ∧
    (i = chunks.length - 1 → (get_context chunks i).2 = []) ∧
    (i < chunks.length - 1 →
      (get_context chunks i).2
        = str "..." ++ ((chunks.getD (i + 1) default).content).take 200 ∧
      (get_context chunks i).2 ≠ [] ∧
      (((chunks.getD (i + 1) default).content).take 200).length ≤ 200) := by
  refine ⟨?_, ?_, ?_, ?_⟩
  · intro h0
    simp [get_context, h0]
  · intro h0
    refine ⟨by simp [get_context, h0], ?_, ?_⟩
    · simp [get_context, h0, str]
    · unfold pyTail
      simp only [List.length_drop]
      omega
  · intro hlast
    have : ¬ i < chunks.length - 1 := by omega
    simp [get_context, this]
  · intro hmid
    refine ⟨by simp [get_context, hmid], ?_, List.length_take_le _ _⟩
    simp [get_context, hmid, str]

/-- C3 witness: the amended statement evaluated at two concrete chunks,
index 1. -/
theorem c3_witness :
    (get_context [⟨str "a", 1, 1, 1⟩, ⟨str "b", 1, 2, 2⟩] 1).1
      = pyTail 200 (str "a") ++ str "..." ∧
    (get_context [⟨str "a", 1, 1, 1⟩, ⟨str "b", 1, 2, 2⟩] 1).1 ≠ [] := by
  have h := (c3_context_previews [⟨str "a", 1, 1, 1⟩, ⟨str "b", 1, 2, 2⟩] 1
    (by decide)).2.1 (by decide)
  exact ⟨h.1, h.2.1⟩

/-!
## Remaining per-chunk derivations and the Chunk Assembler
(`extract_hierarchy`, `extract_semantic_tags`, `generate_question_variants`,
`process_file`; `preprocess_rag_data.py`)
-/

/-- One entry of the hierarchy `structure` list.  Header entries carry no
`parent_section` (modelled as `none`). -/
structure HierItem where
  level : Nat
  title : List Char
  line_number : Nat
  is_header : Bool
  parent_section : Option (List Char)
deriving DecidableEq

/-- `re.match(r'^(#{1,6})\s+(.*)', line)`: header level and stripped title. -/
def headerMatch (line : List Char) : Option (Nat × List Char) :=
  let m := (line.takeWhile (fun c => c = '#')).length
  match line.drop m with
  | c :: rest =>
    if 1 ≤ m ∧ m ≤ 6 ∧ isSpaceChar c then some (m, strip (c :: rest)) else none
  | [] => none

/-- The per-line walk of `extract_hierarchy` (lines are numbered from 1;
`current_section` is the latest header title). -/
def hierGo : List (List Char) → Nat → Option (List Char) → List HierItem
  | [], _, _ => []
  | line :: rest, n, cur =>
    match headerMatch line with
    | some lt => ⟨lt.1, lt.2, n, true, none⟩ :: hierGo rest (n + 1) (some lt.2)
    | none =>
      if patNumbered line then
        ⟨99, strip line, n, false, cur⟩ :: hierGo rest (n + 1) cur
      else hierGo rest (n + 1) cur

/-- `extract_hierarchy(content)["structure"]` (the derived `total_sections`
and `depth` summary fields are counts over this list and are not used by any
claim). -/
def extract_hierarchy (content : List Char) : List HierItem :=
  hierGo (splitLines content) 1 none

/-- `self.semantic_keywords`: tag → trigger substrings, in declaration
order. -/
def semantic_keywords : List (List Char × List (List Char)) :=
  [ (str "정책", [str "정책", str "규정", str "규칙", str "기준", str "원칙", str "방침"]),
    (str "승인", [str "승인", str "검토", str "심사", str "허가", str "인가", str "통과"]),
    (str "거부", [str "거부", str "반려", str "금지", str "제한", str "불가", str "차단"]),
    (str "템플릿", [str "템플릿", str "양식", str "형식", str "포맷", str "서식"]),
    (str "내용", [str "내용", str "텍스트", str "메시지", str "문구", str "문장"]),
    (str "이미지", [str "이미지", str "사진", str "그림", str "이미지", str "첨부"]),
    (str "광고", [str "광고", str "홍보", str "마케팅", str "프로모션", str "캠페인"]),
    (str "개인정보", [str "개인정보", str "프라이버시", str "민감정보", str "개인식별"]),
    (str "금융", [str "금융", str "대출", str "투자", str "보험", str "카드", str "결제"]),
    (str "의료", [str "의료", str "건강", str "병원", str "치료", str "약품", str "질병"]) ]

/-- Matches when the first list is a prefix of the second. -/
def isPrefixIn : List Char → List Char → Bool
  | [], _ => true
  | _ :: _, [] => false
  | n :: ns, h :: hs => n = h && isPrefixIn ns hs

/-- Python's substring test `needle in hay`. -/
def containsSub (needle : List Char) : List Char → Bool
  | [] => needle.isEmpty
  | c :: hs => isPrefixIn needle (c :: hs) || containsSub needle hs

/-- `extract_semantic_tags(content)`: a tag is included when any of its
triggers occurs in the lowercased text (`Char.toLower` lowercases ASCII;
the Korean triggers are unaffected by case). -/
def extract_semantic_tags (content : List Char) : List (List Char) :=
  let contentLower := content.map Char.toLower
  (semantic_keywords.filter
    (fun p => p.2.any (fun kw => containsSub kw contentLower))).map Prod.fst

/-- `generate_question_variants(content)`: trigger-substring rules, then up
to two keyword-templated questions, capped at 5. -/
def generate_question_variants (content : List Char) : List (List Char) :=
  let qs1 := if containsSub (str "금지") content || containsSub (str "제한") content
    then [str "무엇이 금지되나요?", str "어떤 제한사항이 있나요?"] else []
  let qs2 := if containsSub (str "승인") content || containsSub (str "허가") content
    then [str "승인 조건은 무엇인가요?", str "어떻게 승인받을 수 있나요?"] else []
  let qs3 := if containsSub (str "템플릿") content
    then [str "템플릿 작성 방법은?", str "템플릿 규칙은 무엇인가요?"] else []
  let qs4 := match generate_keywords content with
    | [] => []
    | k :: _ => [k ++ str "에 대해 알려주세요", k ++ str "와 관련된 정책은?"]
  (qs1 ++ qs2 ++ qs3 ++ qs4).take 5

/-- Hex digit for `hexdigest`-style output. -/
def hexDigit (n : Nat) : Char :=
  if n < 10 then Char.ofNat ('0'.toNat + n) else Char.ofNat ('a'.toNat + (n - 10))

/-- Fixed-width lowercase hex rendering (most significant digit first). -/
def hexPad (n : Nat) : Nat → List Char
  | 0 => []
  | w + 1 => hexPad (n / 16) w ++ [hexDigit (n % 16)]

/-- `hashlib.md5(text.encode()).hexdigest()` is an external library
primitive; the claims depend only on its being a fixed deterministic
function of the chunk text, so it is modelled by an executable stand-in
digest producing 32 hex characters. -/
def md5hex (input : List Char) : List Char :=
  hexPad (input.foldl (fun a c => (a * 131 + c.toNat + 17) % (2 ^ 128)) 0) 32

/-- Python's `f"{i:03d}"`. -/
def pad3 (n : Nat) : List Char :=
  let ds := Nat.toDigits 10 n
  List.replicate (3 - ds.length) '0' ++ ds

/-- `chunk_id = f"{file_path.stem}_{i:03d}_{content_hash[:8]}"`. -/
def chunkIdOf (stem : List Char) (i : Nat) (text : List Char) : List Char :=
  stem ++ str "_" ++ pad3 i ++ str "_" ++ (md5hex text).take 8

/-- The final `EnhancedChunk` record (its Python `content`, `metadata` and
`context` dicts are flattened into fields). -/
structure EnhancedChunk where
  id : List Char
  document_name : List Char
  chunk_index : Nat
  original : List Char
  summarized : List Char
  keywords : List (List Char)
  question_variants : List (List Char)
  document_hierarchy : List HierItem
  semantic_tags : List (List Char)
  start_line : Int
  end_line : Int
  has_previous : Bool
  has_next : Bool
  prev_content : List Char
  next_content : List Char
  char_count : Nat
  created_at : List Char
deriving DecidableEq

/-- The record built for chunk `i` inside `process_file`'s loop. -/
def buildChunk (stem fileName : List Char) (hierarchy : List HierItem)
    (chunks : List RawChunkSpan) (i : Nat) (ch : RawChunkSpan) : EnhancedChunk :=
  { id := chunkIdOf stem i ch.content
    document_name := fileName
    chunk_index := i
    original := ch.content
    summarized := generate_summary ch.content
    keywords := generate_keywords ch.content
    question_variants := generate_question_variants ch.content
    document_hierarchy := hierarchy
    semantic_tags := extract_semantic_tags ch.content
    start_line := ch.start_line
    end_line := ch.end_line
    has_previous := decide (0 < i)
    has_next := decide (i < chunks.length - 1)
    prev_content := (get_context chunks i).1
    next_content := (get_context chunks i).2
    char_count := ch.content.length
    created_at := str "2024-12-20T00:00:00Z" }

/-- `process_file(file_path)`, as a function of the file's stem, name and
text (the file read is the only I/O; `created_at` is the hardcoded constant
from the source and `uuid` is imported but never used). -/
def process_file (stem fileName content : List Char) : List EnhancedChunk :=
  let hierarchy := extract_hierarchy content
  let chunks := semantic_chunking content
  chunks.enum.map (fun p => buildChunk stem fileName hierarchy chunks p.1 p.2)

/-- The rag pipeline's per-document indexing: `chunk_index` values are the
`enumerate` indices `0, 1, ..., N-1` in emission order. -/
theorem process_file_chunk_index (stem fileName content : List Char) :
    (process_file stem fileName content).map (fun r => r.chunk_index)
      = List.range (semantic_chunking content).length := by
  unfold process_file
  simp only [List.map_map]
  exact List.enum_map_fst _

/-- C8: processing a file is a pure function of `(stem, fileName, text)` —
two runs on identical input produce identical records — and every record's
`id` is the deterministic function `chunkIdOf` of the document stem, the
record's own chunk index, and (a short prefix of the digest of) the chunk's
raw text. -/
theorem c8_idempotent_ids (stem fileName content : List Char) :
    process_file stem fileName content = process_file stem fileName content ∧
    (process_file stem fileName content).map (fun r => r.id)
      = (process_file stem fileName content).map
          (fun r => chunkIdOf stem r.chunk_index r.original) := by
  refine ⟨rfl, ?_⟩
  unfold process_file
  simp only [List.map_map]
  rfl

/-!
## v4 pipeline (`preprocess_policies_v4.py`)

`process_markdown_file` chunks the cleaned text with `semantic_chunk_text`
and assembles one record per kept chunk; chunks whose stripped text is
shorter than 50 characters are skipped (`continue`).  The claims touching
this script concern the chunking, the skip, the indexing and the statistics,
all downstream of `clean_text` (a pure regex normalisation), so the
functions are embedded as functions of the cleaned text.
-/

/-- `.`, `!` or `?` (the lookbehind class of `(?<=[.!?])\s+`). -/
def isPunct3 (c : Char) : Bool := c = '.' || c = '!' || c = '?'

/-- Scanner for `re.split(r'(?<=[.!?])\s+', text)`: split at each maximal
whitespace run immediately preceded by `.`/`!`/`?`.  The first flag is true
while consuming such a run; the second records whether the previous
character was a sentence-final punctuation mark. -/
def sentSplitGo : Bool → Bool → List Char → List (List Char)
  | _, _, [] => [[]]
  | skipMode, prevPunct, c :: cs =>
    if skipMode && isSpaceChar c then sentSplitGo true false cs
    else if prevPunct && isSpaceChar c then [] :: sentSplitGo true false cs
    else
      match sentSplitGo false (isPunct3 c) cs with
      | [] => [[c]]
      | p :: ps => (c :: p) :: ps

/-- `sentences = re.split(r'(?<=[.!?])\s+', text)`. -/
def sentSplit (text : List Char) : List (List Char) := sentSplitGo false false text

/-- The sentence-accumulation loop of `semantic_chunk_text`
(`min_chars = 200`, `max_chars = 400`, the defaults used by the only call
site).  The second argument is `current_chunk`. -/
def sctLoop : List (List Char) → List Char → List (List Char)
  | [], current =>
    if strip current ≠ [] then [strip current] else []
  | s :: rest, current =>
    let sentence := strip s
    if sentence = [] then sctLoop rest current
    else
      let potential := if current ≠ [] then current ++ str " " ++ sentence
        else sentence
      if potential.length ≤ 400 then sctLoop rest potential
      else if 200 ≤ current.length then strip current :: sctLoop rest sentence
      else sctLoop rest potential

/-- `semantic_chunk_text(text)`. -/
def semantic_chunk_text (text : List Char) : List (List Char) :=
  sctLoop (sentSplit text) []

theorem sctLoop_stripped :
    ∀ (sentences : List (List Char)) (current : List Char),
      ∀ c ∈ sctLoop sentences current, strip c = c := by
  intro sentences
  induction sentences with
  | nil =>
    intro current c hc
    simp only [sctLoop] at hc
    split at hc
    · have : c = strip current := by simpa using hc
      rw [this]
      exact strip_idem current
    · simp at hc
  | cons s rest ih =>
    intro current c hc
    simp only [sctLoop] at hc
    by_cases hse : strip s = []
    · rw [if_pos hse] at hc
      exact ih current c hc
    · rw [if_neg hse] at hc
      by_cases hlen : (if current ≠ [] then current ++ str " " ++ strip s
          else strip s).length ≤ 400
      · rw [if_pos hlen] at hc
        exact ih _ c hc
      · rw [if_neg hlen] at hc
        by_cases hcur : 200 ≤ current.length
        · rw [if_pos hcur] at hc
          rcases List.mem_cons.mp hc with hx | hx
          · rw [hx]
            exact strip_idem current
          · exact ih _ c hx
        · rw [if_neg hcur] at hc
          exact ih _ c hc

/-- Every chunk `semantic_chunk_text` emits is strip-fixed: it has no
leading or trailing whitespace, so its stripped length is its length. -/
theorem semantic_chunk_text_stripped (text : List Char) :
    ∀ c ∈ semantic_chunk_text text, strip c = c :=
  sctLoop_stripped (sentSplit text) []

/-- `file_keywords` in `extract_keywords`. -/
def fileKeywords : List (List Char × List (List Char)) :=
  [ (str "infotalk", [str "알림톡", str "InfoTalk"]),
    (str "content-guide", [str "콘텐츠가이드", str "템플릿작성", str "가이드"]),
    (str "audit", [str "심사", str "검수", str "승인"]),
    (str "operations", [str "운영정책", str "정책"]),
    (str "publictemplate", [str "공용템플릿", str "템플릿"]),
    (str "black-list", [str "금지어", str "블랙리스트", str "제한사항"]),
    (str "white-list", [str "허용", str "화이트리스트", str "승인"]) ]

/-- `keyword_patterns`: each regex is an alternation of literals. -/
def keywordPatterns : List (List (List Char)) :=
  [ [str "알림톡", str "InfoTalk"],
    [str "템플릿", str "template"],
    [str "심사", str "검수", str "승인", str "approval"],
    [str "정책", str "policy", str "가이드", str "guide"],
    [str "콘텐츠", str "content"],
    [str "발송", str "전송", str "send"],
    [str "채널", str "channel"],
    [str "사업자", str "business"],
    [str "API"],
    [str "메시지", str "message"] ]

/-- Case-insensitive prefix match (`re.IGNORECASE`; `Char.toLower` handles
the ASCII alternatives, the Korean ones are caseless). -/
def matchCI : List Char → List Char → Bool
  | [], _ => true
  | _ :: _, [] => false
  | n :: ns, h :: hs => (Char.toLower n = Char.toLower h) && matchCI ns hs

/-- First alternative matching at this position; returns the text as it
appears in the haystack (as `re.findall` does). -/
def firstAlt (alts : List (List Char)) (hay : List Char) : Option (List Char) :=
  alts.findSome? (fun a => if matchCI a hay then some (hay.take a.length) else none)

/-- `re.findall` over an alternation of literals: leftmost scan, first
matching alternative, continue after each match.  (All the alternatives in
`keywordPatterns` are non-empty, so each match advances the scan.) -/
def findallAlts (alts : List (List Char)) : List Char → List (List Char)
  | [] => []
  | c :: cs =>
    match firstAlt alts (c :: cs) with
    | some m => m :: findallAlts alts (cs.drop (m.length - 1))
    | none => findallAlts alts cs
termination_by l => l.length
decreasing_by
  · simp only [List.length_drop, List.length_cons]
    omega
  · simp only [List.length_cons]
    omega

/-- `extract_keywords(text, filename)`.  Python finishes with
`list(set(keywords))[:5]`, whose iteration order is hash-dependent; it is
modelled as first-occurrence order (no claim constrains this field). -/
def extract_keywords (text fname : List Char) : List (List Char) :=
  let kws1 := fileKeywords.foldl
    (fun acc p => if containsSub p.1 fname then acc ++ p.2 else acc) []
  let kws2 := keywordPatterns.foldl
    (fun acc alts => acc ++ (findallAlts alts text).filter (fun m => m ∉ acc)) kws1
  (dedupFirstGo kws2 []).take 5

/-- `get_document_type(filename)`. -/
def get_document_type (filename : List Char) : List Char :=
  if containsSub (str "content-guide") filename then str "콘텐츠가이드"
  else if containsSub (str "audit") filename then
    if containsSub (str "black-list") filename then str "심사정책-금지사항"
    else if containsSub (str "white-list") filename then str "심사정책-허용사항"
    else str "심사정책"
  else if containsSub (str "operations") filename then str "운영정책"
  else if containsSub (str "publictemplate") filename then str "공용템플릿"
  else if containsSub (str "infotalk") filename then str "알림톡기본정책"
  else str "기타정책"

/-- `extract_section_from_text(text)`. -/
def extract_section_from_text (text : List Char) : List Char :=
  let fl := strip ((splitLines text).headD [])
  let fl2 := if 50 < fl.length then fl.take 50 ++ str "..." else fl
  if fl2 = [] then str "본문" else fl2

/-- One chunk dict of `process_markdown_file` (metadata flattened;
the Python `"section"` key is called `section_label` because `section` is a
Lean keyword). -/
structure V4Chunk where
  chunk_id : List Char
  content : List Char
  source_file : List Char
  section_label : List Char
  keywords : List (List Char)
  document_type : List Char
  char_count : Nat
  chunk_index : Nat
deriving DecidableEq

/-- The record appended for the chunk at 0-based `enumerate` index `i`. -/
def mkV4Chunk (stem fileName : List Char) (i : Nat) (chunkText : List Char) : V4Chunk :=
  { chunk_id := stem ++ str "_" ++ pad3 (i + 1)
    content := strip chunkText
    source_file := fileName
    section_label := extract_section_from_text chunkText
    keywords := extract_keywords chunkText stem
    document_type := get_document_type stem
    char_count := chunkText.length
    chunk_index := i + 1 }

/-- The `for i, chunk_text in enumerate(chunks)` loop of
`process_markdown_file`: chunks whose stripped text is shorter than 50
characters are skipped (`continue`). -/
def v4Assemble (stem fileName : List Char) : Nat → List (List Char) → List V4Chunk
  | _, [] => []
  | i, c :: cs =>
    if (strip c).length < 50 then v4Assemble stem fileName (i + 1) cs
    else mkV4Chunk stem fileName i c :: v4Assemble stem fileName (i + 1) cs

/-- `process_markdown_file`, as a function of the file's stem, name and its
cleaned text (`clean_text` is the pure regex normalisation applied before
chunking; no claim depends on it, so the input here is its output). -/
def process_markdown_file (stem fileName cleanedText : List Char) : List V4Chunk :=
  v4Assemble stem fileName 0 (semantic_chunk_text cleanedText)

/-- The per-file statistics of `main`: `chunk_count` and `total_chars`. -/
def v4_file_stats (stem fileName cleanedText : List Char) : Nat × Nat :=
  let chunks := process_markdown_file stem fileName cleanedText
  (chunks.length, (chunks.map (fun c => c.char_count)).sum)

theorem v4Assemble_content (stem fileName : List Char) :
    ∀ (chunks : List (List Char)) (i : Nat),
      (∀ c ∈ chunks, strip c = c) →
      (v4Assemble stem fileName i chunks).map (fun r => r.content)
          = chunks.filter (fun c => 50 ≤ c.length) ∧
      (v4Assemble stem fileName i chunks).map (fun r => r.char_count)
          = (chunks.filter (fun c => 50 ≤ c.length)).map List.length := by
  intro chunks
  induction chunks with
  | nil => intro i _; simp [v4Assemble]
  | cons c cs ih =>
    intro i hstrip
    have hc : strip c = c := hstrip c (List.mem_cons_self _ _)
    have hrest : ∀ x ∈ cs, strip x = x :=
      fun x hx => hstrip x (List.mem_cons_of_mem _ hx)
    have ih' := ih (i + 1) hrest
    by_cases hlt : c.length < 50
    · have hcond : (strip c).length < 50 := by rw [hc]; exact hlt
      have hnge : ¬ (50 ≤ c.length) := by omega
      have hv4 : v4Assemble stem fileName i (c :: cs)
          = v4Assemble stem fileName (i + 1) cs := by
        simp [v4Assemble, hcond]
      have hfil : (c :: cs).filter (fun x => 50 ≤ x.length)
          = cs.filter (fun x => 50 ≤ x.length) := by
        simp [List.filter_cons, hnge]
      rw [hv4, hfil]
      exact ih'
    · have hcond : ¬ (strip c).length < 50 := by rw [hc]; exact hlt
      have hge : 50 ≤ c.length := by omega
      have hv4 : v4Assemble stem fileName i (c :: cs)
          = mkV4Chunk stem fileName i c :: v4Assemble stem fileName (i + 1) cs := by
        simp [v4Assemble, hcond]
      have hfil : (c :: cs).filter (fun x => 50 ≤ x.length)
          = c :: cs.filter (fun x => 50 ≤ x.length) := by
        simp [List.filter_cons, hge]
      rw [hv4, hfil]
      constructor
      · simp only [List.map_cons]
        rw [ih'.1]
        rw [show (mkV4Chunk stem fileName i c).content = strip c from rfl, hc]
      · simp only [List.map_cons]
        rw [ih'.2]
        rfl

/-- C7 counterexample: in `preprocess_policies_v4.py` a document with a
single kept chunk (50 characters) yields `chunk_index = 1`, not the claimed
contiguous 0-based sequence `[0]`. -/
theorem c7_counterexample :
    (process_markdown_file (str "doc") (str "doc.md")
        (List.replicate 50 'a')).map (fun r => r.chunk_index) = [1] ∧
    ([1] : List Nat) ≠ List.range 1 := by
  refine ⟨by decide, by decide⟩

/-- C7 (amended): in `preprocess_rag_data.py` the `chunk_index` values are
exactly the emission order `0, 1, ..., N-1`; in `preprocess_policies_v4.py`
the `chunk_index` of a kept chunk is `i + 1` where `i` is its 0-based
position in the pre-filter chunk list, so the values are 1-based and skip
the positions of dropped sub-50-character chunks. -/
theorem c7_chunk_index_scheme :
    (∀ stem fileName content : List Char,
      (process_file stem fileName content).map (fun r => r.chunk_index)
        = List.range (semantic_chunking content).length) ∧
    (∀ (stem fileName : List Char) (i : Nat) (chunks : List (List Char)),
      (v4Assemble stem fileName i chunks).map (fun r => r.chunk_index)
        = ((List.enumFrom i chunks).filter
            (fun p => 50 ≤ (strip p.2).length)).map (fun p => p.1 + 1)) := by
  constructor
  · exact process_file_chunk_index
  · intro stem fileName i chunks
    induction chunks generalizing i with
    | nil => simp [v4Assemble, List.enumFrom]
    | cons c cs ih =>
      simp only [List.enumFrom]
      by_cases hlt : (strip c).length < 50
      · have hnge : ¬ (50 ≤ (strip c).length) := by omega
        have hv4 : v4Assemble stem fileName i (c :: cs)
            = v4Assemble stem fileName (i + 1) cs := by
          simp [v4Assemble, hlt]
        have hfil : ((i, c) :: List.enumFrom (i + 1) cs).filter
            (fun p => 50 ≤ (strip p.2).length)
            = (List.enumFrom (i + 1) cs).filter (fun p => 50 ≤ (strip p.2).length) := by
          simp [List.filter_cons, hnge]
        rw [hv4, hfil]
        exact ih (i + 1)
      · have hge : 50 ≤ (strip c).length := by omega
        have hv4 : v4Assemble stem fileName i (c :: cs)
            = mkV4Chunk stem fileName i c :: v4Assemble stem fileName (i + 1) cs := by
          simp [v4Assemble, hlt]
        have hfil : ((i, c) :: List.enumFrom (i + 1) cs).filter
            (fun p => 50 ≤ (strip p.2).length)
            = (i, c) :: (List.enumFrom (i + 1) cs).filter
                (fun p => 50 ≤ (strip p.2).length) := by
          simp [List.filter_cons, hge]
        rw [hv4, hfil]
        simp only [List.map_cons]
        rw [ih (i + 1)]
        rfl

/-- C9: chunks whose text is shorter than 50 characters are dropped before
assembly (the chunker's outputs are already stripped, so the strip in the
length test is the identity); they are not emitted and do not count toward
the per-file chunk or character statistics; chunks of 50 or more characters
are emitted. -/
theorem c9_degenerate_chunks_dropped (stem fileName text : List Char) :
    (∀ c ∈ semantic_chunk_text text, strip c = c) ∧
    (process_markdown_file stem fileName text).map (fun r => r.content)
      = (semantic_chunk_text text).filter (fun c => 50 ≤ c.length) ∧
    (∀ c ∈ semantic_chunk_text text, c.length < 50 →
      c ∉ (process_markdown_file stem fileName text).map (fun r => r.content)) ∧
    (v4_file_stats stem fileName text).1
      = ((semantic_chunk_text text).filter (fun c => 50 ≤ c.length)).length ∧
    (v4_file_stats stem fileName text).2
      = sumLen ((semantic_chunk_text text).filter (fun c => 50 ≤ c.length)) := by
  have hstrip := semantic_chunk_text_stripped text
  have hmain := v4Assemble_content stem fileName (semantic_chunk_text text) 0 hstrip
  refine ⟨hstrip, hmain.1, ?_, ?_, ?_⟩
  · intro c hc hlen hmem
    rw [show (process_markdown_file stem fileName text).map (fun r => r.content)
        = (semantic_chunk_text text).filter (fun c => 50 ≤ c.length) from hmain.1] at hmem
    have := List.of_mem_filter hmem
    simp at this
    omega
  · show (process_markdown_file stem fileName text).length = _
    have := congrArg List.length hmain.1
    simpa using this
  · show ((process_markdown_file stem fileName text).map (fun c => c.char_count)).sum = _
    unfold process_markdown_file
    rw [hmain.2]
    rfl

/-- C9 witness: a 50-character document passes through as one kept chunk
with matching statistics. -/
theorem c9_witness :
    strip (List.replicate 50 'a') = List.replicate 50 'a' ∧
    (process_markdown_file (str "doc") (str "doc.md")
        (List.replicate 50 'a')).map (fun r => r.content)
      = (semantic_chunk_text (List.replicate 50 'a')).filter
          (fun c => 50 ≤ c.length) ∧
    (v4_file_stats (str "doc") (str "doc.md") (List.replicate 50 'a')).1
      = ((semantic_chunk_text (List.replicate 50 'a')).filter
          (fun c => 50 ≤ c.length)).length := by
  have h := c9_degenerate_chunks_dropped (str "doc") (str "doc.md")
    (List.replicate 50 'a')
  exact ⟨h.1 _ (by decide), h.2.1, h.2.2.2.1⟩
